import Mathlib

/-!
Verification of the CometBFT transaction indexer (state/txindex/kv/kv.go).

This file gives a shallow embedding of the key-value transaction indexer:
the data model (TxResult, Event, Attribute), the key codec (keyForHeight,
keyForEvent, extractHeightFromKey, extractValueFromKey,
extractEventSeqFromKey, isTagKey), the write path (indexEvents, Index,
AddBatch) and the read path (lookForHash, lookForHeight, match, matchRange,
Search), together with theorems about the embedded definitions.

Modelling conventions:
- Go byte strings (both []byte and string values) are modelled as List Char,
  one Char per byte; byte-wise unsigned lexicographic order on keys is
  modelled by comparing Char codepoints.
- Machine integers: int64 fields are modelled as Int; where the source
  converts a big.Int to int64 (big.Int.Int64 keeps the low 64 bits), the
  wrap-around is modelled explicitly by wrap64.
- The KV store is a finite map from keys to values; a write batch is the
  ordered list of its Set calls, and committing a batch applies the writes
  in order (later writes to the same key win), which is exactly the
  observable behaviour of the dbm batch used by the source.
- proto.Marshal / proto.Unmarshal are external to the repository; a by-hash
  entry stores the marshalled TxResult.  Marshalling is modelled by the
  injective constructor StoreVal.txres (so unmarshalling a value that is
  not a marshalled TxResult fails, and marshalling never fails).  Raw hash
  values written by the event and height indexes are StoreVal.bytes.
- A Go context is modelled as the sequence of answers its Done channel
  would give at the entry select and at each later poll site (Ctx).  In the
  source every later poll is a select whose cancelled branch is a bare
  break, which in Go exits only the select statement, never the enclosing
  for loop, so each poll is a no-op; the embedding keeps the polls (through
  pollStep) so that this can be proved rather than assumed.
- Fallible Go functions return Except GErr; Go panics reachable in the
  modelled code paths are the GErr.panicE error value.
-/

/-- Error kinds produced by the modelled code paths: ErrorEmptyHash from Get,
a proto.Unmarshal failure in Get, a hex.DecodeString failure surfaced by
Search, a Go panic (failed type assertion or an explicit panic call), the
wrapped error of the hash fast path, and the wrapped error of the result
materializer. -/
inductive GErr where
  | emptyHash
  | unmarshalE
  | hexE
  | panicE
  | retrieveE
  | getTxE
deriving DecidableEq, Repr

-- Decidable equality of Except values, to evaluate the embedded functions
-- on concrete inputs.
deriving instance DecidableEq for Except

/-- Bytes of a Go string or []byte value, one Char per byte. -/
abbrev Bytes := List Char

/-- Attribute of an ABCI event: key, value, and the index flag
(attr.GetIndex() in the source). -/
structure Attribute where
  key : Bytes
  value : Bytes
  index : Bool
deriving DecidableEq, Repr

/-- ABCI event: a type string and a list of attributes. -/
structure Event where
  type : Bytes
  attributes : List Attribute
deriving DecidableEq, Repr

/-- Result payload of a transaction: the response code (uint32, 0 means OK)
and the emitted events. -/
structure ExecResult where
  code : Nat
  events : List Event
deriving DecidableEq, Repr

/-- TxResult, the unit being indexed: transaction bytes, block height
(int64), intra-block index (uint32) and the execution result. -/
structure TxResult where
  tx : Bytes
  height : Int
  index : Nat
  result : ExecResult
deriving DecidableEq, Repr

/-- Stored value of a KV entry: either raw bytes (a transaction hash, as
written by the height and event indexes) or a marshalled TxResult (as
written by the by-hash index).  proto.Marshal is external to the repository
and injective, so it is modelled by the txres constructor. -/
inductive StoreVal where
  | bytes (b : Bytes)
  | txres (r : TxResult)
deriving DecidableEq, Repr

/-- KV store contents: an association list from keys to values with unique
keys (storeSet keeps uniqueness). -/
abbrev Store := List (Bytes × StoreVal)

/-- Write a key-value pair: overwrite the existing entry for the key, or
append a new entry. -/
def storeSet (s : Store) (k : Bytes) (v : StoreVal) : Store :=
  if s.any (fun kv => kv.1 = k) then
    s.map (fun kv => if kv.1 = k then (k, v) else kv)
  else
    s ++ [(k, v)]

/-- Point lookup in the store. -/
def storeGet (s : Store) (k : Bytes) : Option StoreVal :=
  (s.find? (fun kv => kv.1 = k)).map (fun kv => kv.2)

/-- Apply a batch of writes in order; later writes to the same key win,
exactly as committing a dbm batch does. -/
def applyWrites (ws : List (Bytes × StoreVal)) (s : Store) : Store :=
  ws.foldl (fun acc kv => storeSet acc kv.1 kv.2) s

/-- Strict byte-wise lexicographic order on keys (unsigned byte compare, as
the underlying ordered KV store uses). -/
def blt : Bytes → Bytes → Bool
  | [], [] => false
  | [], _ :: _ => true
  | _ :: _, [] => false
  | a :: as, b :: bs =>
    if a.toNat < b.toNat then true
    else if b.toNat < a.toNat then false
    else blt as bs

/-- Reflexive byte-wise lexicographic order on keys. -/
def ble (a b : Bytes) : Bool := !(blt b a)

/-- Insert into a list sorted by a boolean order. -/
def insSorted (le : α → α → Bool) (x : α) : List α → List α
  | [] => [x]
  | y :: ys => if le x y then x :: y :: ys else y :: insSorted le x ys

/-- Insertion sort by a boolean order. -/
def sortBy (le : α → α → Bool) (l : List α) : List α :=
  l.foldr (insSorted le) []

/-- Entries of the store in ascending key order, as a store iterator
produces them. -/
def sortedEntries (s : Store) : Store :=
  sortBy (fun a b => ble a.1 b.1) s

/-- Iterator over all entries whose key has the given prefix
(dbm.IteratePrefix), in ascending key order. -/
def prefixScan (s : Store) (pfx : Bytes) : Store :=
  (sortedEntries s).filter (fun kv => pfx.isPrefixOf kv.1)

/-- Iterator over the half-open key range from fromKey (inclusive) to toKey
(exclusive), in ascending key order (store.Iterator(fromKey, toKey)). -/
def rangeScan (s : Store) (fromKey toKey : Bytes) : Store :=
  (sortedEntries s).filter (fun kv => ble fromKey kv.1 && blt kv.1 toKey)

/-- Constant tagKeySeparator from the source. -/
def tagKeySeparator : Char := '/'

/-- Constant eventSeqSeparator from the source. -/
def eventSeqSeparator : Bytes := "$es$".data

/-- Constant types.TxHashKey. -/
def txHashKey : Bytes := "tx.hash".data

/-- Constant types.TxHeightKey. -/
def txHeightKey : Bytes := "tx.height".data

/-- Constant types.MatchEventKey. -/
def matchEventKey : Bytes := "match.events".data

/-- Split a byte string at every occurrence of a separator character
(strings.SplitN(s, sep, -1) for the one-byte separator used by the
source); always returns at least one part. -/
def splitSep (sep : Char) : Bytes → List Bytes
  | [] => [[]]
  | c :: cs =>
    let r := splitSep sep cs
    if c = sep then [] :: r
    else
      match r with
      | [] => [[c]]
      | p :: ps => (c :: p) :: ps

/-- Count the occurrences of a character (strings.Count for a one-byte
substring). -/
def countChar (sep : Char) (s : Bytes) : Nat :=
  s.countP (fun c => c = sep)

/-- Test whether pat occurs as a substring (strings.Contains, for the
non-empty patterns used by the source). -/
def containsSub : Bytes → Bytes → Bool
  | s, pat =>
    if pat.isPrefixOf s then true
    else
      match s with
      | [] => false
      | _ :: t => containsSub t pat

/-- Suffix of s after the first occurrence of pat, or none when pat does
not occur (strings.SplitN(s, pat, 2)[1] guarded by strings.Contains). -/
def splitAfterSub (pat : Bytes) : Bytes → Option Bytes
  | [] => if pat.isPrefixOf ([] : Bytes) then some [] else none
  | c :: t =>
    if pat.isPrefixOf (c :: t) then some ((c :: t).drop pat.length)
    else splitAfterSub pat t

/-- Remove a leading occurrence of pre from s, if present
(strings.TrimPrefix(s, pre)). -/
def stripPre (s pre : Bytes) : Bytes :=
  if pre.isPrefixOf s then s.drop pre.length else s

/-- Remove a trailing occurrence of suf from s, if present
(strings.TrimSuffix(s, suf)). -/
def stripSuf (s suf : Bytes) : Bytes :=
  if suf.isSuffixOf s then s.take (s.length - suf.length) else s

/-- Decimal digit character for a digit value below ten. -/
def digitChar (d : Nat) : Char := Char.ofNat (48 + d)

/-- Fuel-driven loop producing the decimal digits of a positive number,
most significant digit first (any fuel of at least n steps is exact). -/
def natDecAux : Nat → Nat → Bytes
  | 0, _ => []
  | fuel + 1, n =>
    if n = 0 then [] else natDecAux fuel (n / 10) ++ [digitChar (n % 10)]

/-- Decimal representation of a natural number, most significant digit
first (the digits strconv.FormatInt and the %d verb print). -/
def natDec (n : Nat) : Bytes :=
  if n = 0 then ['0'] else natDecAux n n

/-- Decimal representation of an integer, with a leading minus sign for
negative values (strconv.FormatInt(i, 10) and the %d verb). -/
def intDec (i : Int) : Bytes :=
  if i < 0 then '-' :: natDec (-i).toNat else natDec i.toNat

/-- Test for an ASCII decimal digit byte. -/
def isDig (c : Char) : Bool := 48 ≤ c.toNat && c.toNat ≤ 57

/-- Parse an unsigned run of decimal digits; none when empty or when a
non-digit occurs (the digit-consuming core of strconv.ParseInt). -/
def parseDigits (s : Bytes) : Option Nat :=
  if s ≠ [] && s.all isDig then
    some (s.foldl (fun a c => a * 10 + (c.toNat - 48)) 0)
  else none

/-- Parse a signed decimal int64 (strconv.ParseInt(s, 10, 64)): an optional
sign followed by digits, failing on the empty string, on non-digits and on
values outside the signed 64-bit range. -/
def parseInt64 (s : Bytes) : Option Int :=
  match s with
  | [] => none
  | c :: rest =>
    let neg := c = '-'
    let digs := if c = '-' || c = '+' then rest else s
    match parseDigits digs with
    | none => none
    | some n =>
      if neg then
        if n ≤ 2 ^ 63 then some (-(n : Int)) else none
      else
        if n ≤ 2 ^ 63 - 1 then some (n : Int) else none

/-- Low 64 bits of an integer, read back as a signed two's-complement value
(big.Int.Int64 on an arbitrary big integer). -/
def wrap64 (x : Int) : Int := (x + 2 ^ 63) % 2 ^ 64 - 2 ^ 63

/-- Big-endian 4-byte encoding of the low 32 bits of an int64 height, as
the byte(h >> 24), byte(h >> 16), byte(h >> 8), byte(h) expressions of the
source produce (Go >> on int64 is an arithmetic shift, i.e. floor
division). -/
def be4 (h : Int) : Bytes :=
  [Char.ofNat ((Int.fdiv h (2 ^ 24)) % 256).toNat,
   Char.ofNat ((Int.fdiv h (2 ^ 16)) % 256).toNat,
   Char.ofNat ((Int.fdiv h (2 ^ 8)) % 256).toNat,
   Char.ofNat (h % 256).toNat]

/-- Hex digit value of one character (encoding/hex). -/
def hexDigVal (c : Char) : Option Nat :=
  if 48 ≤ c.toNat && c.toNat ≤ 57 then some (c.toNat - 48)
  else if 97 ≤ c.toNat && c.toNat ≤ 102 then some (c.toNat - 87)
  else if 65 ≤ c.toNat && c.toNat ≤ 70 then some (c.toNat - 55)
  else none

/-- Hex decoding of a string to bytes; none on odd length or an invalid
digit (hex.DecodeString; the source only uses the decoded bytes when the
returned error is nil). -/
def hexDecode : Bytes → Option Bytes
  | [] => some []
  | [_] => none
  | a :: b :: rest =>
    match hexDigVal a, hexDigVal b, hexDecode rest with
    | some x, some y, some r => some (Char.ofNat (x * 16 + y) :: r)
    | _, _, _ => none

/-- Tag-key test from the source: a key is a tag key iff it contains at
least three tag separators. -/
def isTagKey (key : Bytes) : Bool :=
  countChar tagKeySeparator key ≥ 3

/-- Height extraction from a key: split on the tag separator and parse the
second-to-last part as a signed decimal int64.  The source indexes
parts[len(parts)-2], which Go would reject at run time when the key has a
single part; every key this is applied to has been produced by a scan whose
lower bound contains a separator, so that case is unreachable and is
modelled as none. -/
def extractHeightFromKey (key : Bytes) : Option Int :=
  let parts := splitSep tagKeySeparator key
  if parts.length < 2 then none
  else parseInt64 (parts.getD (parts.length - 2) [])

/-- Value extraction from a tag key: strip the first part plus separator as
a prefix and the last two parts (with their separators) as a suffix.  The
source indexes parts[len(parts)-2], a run-time error when the key has a
single part (modelled as none; unreachable behind the isTagKey guard). -/
def extractValueFromKey (key : Bytes) : Option Bytes :=
  let parts := splitSep tagKeySeparator key
  if parts.length < 2 then none
  else
    let value := stripPre key (parts.getD 0 [] ++ [tagKeySeparator])
    let suffix :=
      tagKeySeparator :: parts.getD (parts.length - 2) [] ++
        tagKeySeparator :: parts.getD (parts.length - 1) []
    some (stripSuf value suffix)

/-- Event-sequence extraction from a key: the substring of the last part
after the eventSeqSeparator, or "0" when the marker is absent. -/
def extractEventSeqFromKey (key : Bytes) : Bytes :=
  let parts := splitSep tagKeySeparator key
  let lastEl := parts.getLastD []
  match splitAfterSub eventSeqSeparator lastEl with
  | some r => r
  | none => ['0']

/-- Composite by-event-attribute key:
key / value / height / index $es$ eventSeq. -/
def keyForEvent (key : Bytes) (value : Bytes) (r : TxResult) (eventSeq : Int) : Bytes :=
  key ++ tagKeySeparator ::
    (value ++ tagKeySeparator ::
      (intDec r.height ++ tagKeySeparator ::
        (natDec r.index ++ eventSeqSeparator ++ intDec eventSeq)))

/-- Composite by-height key:
tx.height / BE4(height) / height / index $es$ 0. -/
def keyForHeight (r : TxResult) : Bytes :=
  txHeightKey ++ tagKeySeparator ::
    (be4 r.height ++ tagKeySeparator ::
      (intDec r.height ++ tagKeySeparator ::
        (natDec r.index ++ eventSeqSeparator ++ ['0'])))

/-- Query operators of a pubsub query condition. -/
inductive QOp where
  | opEq
  | opExists
  | opContains
  | opLt
  | opLte
  | opGt
  | opGte
deriving DecidableEq, Repr

/-- Operand of a condition: the parser produces a string, a big integer, or
no operand at all (the nil interface carried by an existence condition). -/
inductive Operand where
  | str (s : Bytes)
  | intO (n : Int)
  | nilO
deriving DecidableEq, Repr

/-- Query condition: composite key, operator and operand. -/
structure Condition where
  compositeKey : Bytes
  op : QOp
  operand : Operand
deriving DecidableEq, Repr

/-- Formatting of one startKey field with the %v verb: strings print
themselves, big integers print in decimal, and a nil operand prints as
the literal text between angle brackets that Go uses for nil. -/
def fmtOperand : Operand → Bytes
  | .str s => s
  | .intO n => intDec n
  | .nilO => "<nil>".data

/-- Variadic startKey of the source at one field: the field followed by the
tag separator. -/
def startKey1 (a : Bytes) : Bytes := a ++ [tagKeySeparator]

/-- Variadic startKey of the source at two fields. -/
def startKey2 (a b : Bytes) : Bytes :=
  a ++ tagKeySeparator :: (b ++ [tagKeySeparator])

/-- Variadic startKey of the source at three fields. -/
def startKey3 (a b c : Bytes) : Bytes :=
  a ++ tagKeySeparator :: (b ++ tagKeySeparator :: (c ++ [tagKeySeparator]))

/-- Start key for a condition: composite key and operand, with the height
prepended after them when a positive height constraint is in effect. -/
def startKeyForCondition (c : Condition) (height : Int) : Bytes :=
  if height > 0 then startKey3 c.compositeKey (fmtOperand c.operand) (intDec height)
  else startKey2 c.compositeKey (fmtOperand c.operand)

/-- State of one TxIndex instance: its store and its event-sequence
counter. -/
structure TxIndexState where
  store : Store
  eventSeq : Int
deriving DecidableEq, Repr

/-- Get from the by-hash index: ErrorEmptyHash on an empty hash, none when
the key is absent, an unmarshal error when the stored value is not a
marshalled TxResult. -/
def Get (hash : Bytes) (s : Store) : Except GErr (Option TxResult) :=
  if hash = [] then .error .emptyHash
  else
    match storeGet s hash with
    | none => .ok none
    | some (.txres r) => .ok (some r)
    | some (.bytes _) => .error .unmarshalE

/-- Loop of indexEvents over the event list: the counter is incremented for
every event; events with an empty type are skipped after the increment;
each attribute with a non-empty key and the index flag set emits one
by-event-attribute write.  Returns the emitted writes in order and the
final counter. -/
def indexEventsGo (r : TxResult) (hash : Bytes) :
    List Event → Int → List (Bytes × StoreVal) × Int
  | [], seq => ([], seq)
  | e :: es, seq =>
    let seq1 := seq + 1
    if e.type = [] then indexEventsGo r hash es seq1
    else
      let ws := e.attributes.filterMap (fun a =>
        if a.key = [] then none
        else if a.index then
          some (keyForEvent (e.type ++ '.' :: a.key) a.value r seq1, StoreVal.bytes hash)
        else none)
      let p := indexEventsGo r hash es seq1
      (ws ++ p.1, p.2)

/-- Writes of indexEvents for one result, starting from a given counter
value. -/
def indexEvents (r : TxResult) (hash : Bytes) (seq : Int) :
    List (Bytes × StoreVal) × Int :=
  indexEventsGo r hash r.result.events seq

/-- Ordered writes one result contributes to a batch: its event-index
writes, then the by-height write, then the by-hash write. -/
def opWrites (hashFn : Bytes → Bytes) (seq : Int) (r : TxResult) :
    List (Bytes × StoreVal) × Int :=
  let hash := hashFn r.tx
  let p := indexEvents r hash seq
  (p.1 ++ [(keyForHeight r, StoreVal.bytes hash), (hash, StoreVal.txres r)], p.2)

/-- Apply the write pipeline of one result to the indexer state. -/
def applyOp (hashFn : Bytes → Bytes) (txi : TxIndexState) (r : TxResult) :
    TxIndexState :=
  let p := opWrites hashFn txi.eventSeq r
  { store := applyWrites p.1 txi.store, eventSeq := p.2 }

/-- Index of a single transaction result.  The transaction hash is computed
by the external digest (a parameter hashFn standing for types.Tx.Hash).
When the new result is not OK and an OK result is already stored under the
same hash, the call returns success without writing; otherwise the event,
height and hash writes are committed atomically. -/
def Index (hashFn : Bytes → Bytes) (txi : TxIndexState) (r : TxResult) :
    Except GErr TxIndexState :=
  let hash := hashFn r.tx
  if r.result.code ≠ 0 then
    match Get hash txi.store with
    | .error e => .error e
    | .ok (some oldResult) =>
      if oldResult.result.code = 0 then .ok txi
      else .ok (applyOp hashFn txi r)
    | .ok none => .ok (applyOp hashFn txi r)
  else .ok (applyOp hashFn txi r)

/-- AddBatch: the write pipeline of Index folded over the ops of the batch
into a single batch committed atomically, without the skip-on-fail rule.
Accumulating all Set calls in one batch and committing it once applies the
same writes in the same order as applying each op in turn. -/
def AddBatch (hashFn : Bytes → Bytes) (txi : TxIndexState)
    (ops : List TxResult) : Except GErr TxIndexState :=
  .ok (ops.foldl (applyOp hashFn) txi)

/-- Cancellation context: whether the Done channel already answers at the
entry select of Search, and whether it answers at the n-th later poll site
of the current loop (poll sites are numbered per loop; their answers turn
out to be irrelevant, see the cancellation theorems). -/
structure Ctx where
  entryDone : Bool
  laterDone : Nat → Bool

/-- Context that is never cancelled. -/
def ctxNever : Ctx := { entryDone := false, laterDone := fun _ => false }

/-- One later poll site: a select whose cancelled branch is a bare break.
In Go a break inside a select exits only the select statement, never the
enclosing for loop, so both branches continue with the same state. -/
def pollStep (ctx : Ctx) (n : Nat) (a : α) : α :=
  if ctx.laterDone n then a else a

/-- Key of the in-memory hash-set map: the iterator value together with the
appended event-sequence string (empty when match-events is off).  The Go
map key is the concatenation string(value) + eventSeq; the pair keeps the
two components apart. -/
abbrev SKey := StoreVal × Bytes

/-- In-memory filter set: association list from SKey to the raw iterator
value, unique keys. -/
abbrev FMap := List (SKey × StoreVal)

/-- Insert into the filter set, overwriting an existing entry. -/
def mapSet (m : FMap) (k : SKey) (v : StoreVal) : FMap :=
  if m.any (fun kv => kv.1 = k) then
    m.map (fun kv => if kv.1 = k then (k, v) else kv)
  else
    m ++ [(k, v)]

/-- Lookup in the filter set. -/
def mapGet (m : FMap) (k : SKey) : Option StoreVal :=
  (m.find? (fun kv => kv.1 = k)).map (fun kv => kv.2)

/-- Insert one iterator entry into tmpHashes: keyed by the value alone, or
by the value plus the event sequence extracted from the key under
match-events. -/
def setTmpHashes (tmp : FMap) (key : Bytes) (v : StoreVal) (matchEvents : Bool) : FMap :=
  if matchEvents then mapSet tmp (v, extractEventSeqFromKey key) v
  else mapSet tmp (v, []) v

/-- Result of scanning the conditions for a tx.hash condition: no such
condition; a panic of the string type assertion on its operand; a hex
decoding error; or the decoded hash. -/
inductive HashLook where
  | notFound
  | panicNS
  | decodeErr
  | found (h : Bytes)
deriving DecidableEq, Repr

/-- Scan for the first condition whose composite key is tx.hash (the
operator is not inspected), assert its operand to be a string and hex
decode it. -/
def lookForHash : List Condition → HashLook
  | [] => .notFound
  | c :: rest =>
    if c.compositeKey = txHashKey then
      match c.operand with
      | .str s =>
        match hexDecode s with
        | some h => .found h
        | none => .decodeErr
      | _ => .panicNS
    else lookForHash rest

/-- Scan for the first condition tx.height = N; returns (N as int64, its
index), or (0, -1).  The big.Int type assertion on the operand panics when
the operand of such a condition is not an integer. -/
def lookForHeight : List Condition → Nat → Except GErr (Int × Int)
  | [], _ => .ok (0, -1)
  | c :: rest, i =>
    if c.compositeKey = txHeightKey ∧ c.op = .opEq then
      match c.operand with
      | .intO n => .ok (wrap64 n, (i : Int))
      | _ => .error .panicE
    else lookForHeight rest (i + 1)

/-- Modelled from the spec: QueryRange of the indexer package (not under
src/) — a per-key numeric range with optional integer bounds and
inclusivity flags. -/
structure QueryRange where
  key : Bytes
  lowerBound : Option Int := none
  upperBound : Option Int := none
  includeLower : Bool := false
  includeUpper : Bool := false
deriving DecidableEq, Repr

/-- Modelled from the spec: QueryRange.LowerBoundValue (not under src/) —
the inclusive lower bound value: the bound itself when inclusive, one more
when exclusive, none when absent. -/
def lowerBoundValue (qr : QueryRange) : Option Int :=
  qr.lowerBound.map (fun l => if qr.includeLower then l else l + 1)

/-- Modelled from the spec: QueryRange.UpperBoundValue (not under src/) —
the inclusive upper bound value: the bound itself when inclusive, one less
when exclusive, none when absent. -/
def upperBoundValue (qr : QueryRange) : Option Int :=
  qr.upperBound.map (fun u => if qr.includeUpper then u else u - 1)

/-- Modelled from the spec: HeightInfo (not under src/) — the per-query
height constraint data: the tx.height equality value (0 when absent), its
condition index (-1 when absent), the extracted height range, and whether
the query consists solely of height-equality or height-range predicates. -/
structure HeightInfo where
  height : Int := 0
  heightEqIdx : Int := -1
  heightRange : Option QueryRange := none
  onlyHeightEq : Bool := false
  onlyHeightRange : Bool := false
deriving DecidableEq, Repr

/-- Modelled from the spec: checkHeightConditions (not under src/) — a key
height satisfies the height info when it equals the height-equality value
(if one is set) and lies within the height range (if one is set). -/
def checkHeightConditions (hi : HeightInfo) (keyHeight : Int) : Bool :=
  (hi.height = 0 || keyHeight = hi.height) &&
    (match hi.heightRange with
     | none => true
     | some qr =>
       (match lowerBoundValue qr with
        | none => true
        | some l => l ≤ keyHeight) &&
       (match upperBoundValue qr with
        | none => true
        | some u => keyHeight ≤ u))

/-- Modelled from the spec: dedupMatchEvents (not under src/) — detect the
pseudo-condition with composite key match.events at the head of the query;
the conditions are returned unchanged and the head condition, when present,
is later skipped by index 0. -/
def dedupMatchEvents (conds : List Condition) : List Condition × Bool :=
  match conds with
  | c :: _ => (conds, c.compositeKey = matchEventKey)
  | [] => (conds, false)

/-- Height-equality test on one condition with an integer operand. -/
def isHeightEqCond (c : Condition) : Bool :=
  c.compositeKey = txHeightKey && c.op = .opEq &&
    (match c.operand with | .intO _ => true | _ => false)

/-- Range-operator test on one condition. -/
def isRangeOp (c : Condition) : Bool :=
  match c.op with
  | .opLt => true
  | .opLte => true
  | .opGt => true
  | .opGte => true
  | _ => false

/-- Modelled from the spec: dedupHeight (not under src/) — under
match-events, keep the first tx.height equality condition, drop later
duplicates, and fill the HeightInfo: the equality value and index, and the
flags saying whether the query consists solely of height-equality
(respectively height-range) predicates besides match.events. -/
def dedupHeight (conds : List Condition) : List Condition × HeightInfo :=
  let onlyEq := conds.all (fun c =>
    c.compositeKey = matchEventKey || isHeightEqCond c)
  let onlyRange := conds.all (fun c =>
    c.compositeKey = matchEventKey ||
      (c.compositeKey = txHeightKey && isRangeOp c))
  match conds.findIdx? isHeightEqCond with
  | none =>
    (conds, { onlyHeightEq := onlyEq, onlyHeightRange := onlyRange })
  | some i =>
    let hv :=
      match (conds.getD i { compositeKey := [], op := .opEq, operand := .nilO }).operand with
      | .intO n => wrap64 n
      | _ => 0
    let deduped :=
      (conds.enum.filter (fun ci => ci.1 = i || !isHeightEqCond ci.2)).map
        (fun ci => ci.2)
    (deduped,
     { height := hv, heightEqIdx := (i : Int), onlyHeightEq := onlyEq,
       onlyHeightRange := onlyRange })

/-- Update a query range with one range condition on its key (only integer
operands install a bound). -/
def updateQR (qr : QueryRange) (c : Condition) : QueryRange :=
  match c.op, c.operand with
  | .opGt, .intO n => { qr with lowerBound := some n, includeLower := false }
  | .opGte, .intO n => { qr with lowerBound := some n, includeLower := true }
  | .opLt, .intO n => { qr with upperBound := some n, includeUpper := false }
  | .opLte, .intO n => { qr with upperBound := some n, includeUpper := true }
  | _, _ => qr

/-- Insert one range condition into the per-key range list, grouping by
composite key in first-occurrence order. -/
def insertRange (rs : List QueryRange) (c : Condition) : List QueryRange :=
  if rs.any (fun qr => qr.key = c.compositeKey) then
    rs.map (fun qr => if qr.key = c.compositeKey then updateQR qr c else qr)
  else
    rs ++ [updateQR { key := c.compositeKey } c]

/-- Modelled from the spec: indexer.LookForRangesWithHeight (not under
src/) — collect all range conditions grouped by composite key, record
their indexes, and single out the tx.height range. -/
def lookForRangesWithHeight (conds : List Condition) :
    List QueryRange × List Nat × Option QueryRange :=
  let p := conds.enum.foldl
    (fun (acc : List QueryRange × List Nat) ci =>
      if isRangeOp ci.2 then (insertRange acc.1 ci.2, acc.2 ++ [ci.1])
      else acc)
    ([], [])
  (p.1, p.2, p.1.find? (fun qr => qr.key = txHeightKey))

/-- Scan loop shared by the Eq and Exists branches of match: under
match-events a key whose height cannot be extracted or fails the height
conditions is skipped (the continue also skips the poll); otherwise the
entry is inserted and the cancellation poll runs. -/
def scanKV (ctx : Ctx) (matchEvents : Bool) (hInfo : HeightInfo) :
    Store → Nat → FMap → FMap
  | [], _, tmp => tmp
  | kv :: rest, n, tmp =>
    if matchEvents then
      match extractHeightFromKey kv.1 with
      | none => scanKV ctx matchEvents hInfo rest n tmp
      | some kh =>
        if checkHeightConditions hInfo kh then
          pollStep ctx n (scanKV ctx matchEvents hInfo rest (n + 1)
            (setTmpHashes tmp kv.1 kv.2 matchEvents))
        else scanKV ctx matchEvents hInfo rest n tmp
    else
      pollStep ctx n (scanKV ctx matchEvents hInfo rest (n + 1)
        (setTmpHashes tmp kv.1 kv.2 matchEvents))

/-- Scan loop of the Contains branch of match: non-tag keys are skipped
(before the poll); for tag keys the extracted value is tested for the
operand substring, with the match-events height filter applied before
insertion. -/
def scanContainsLoop (ctx : Ctx) (matchEvents : Bool) (hInfo : HeightInfo)
    (operand : Bytes) : Store → Nat → FMap → FMap
  | [], _, tmp => tmp
  | kv :: rest, n, tmp =>
    if !isTagKey kv.1 then scanContainsLoop ctx matchEvents hInfo operand rest n tmp
    else
      let hit :=
        match extractValueFromKey kv.1 with
        | some v => containsSub v operand
        | none => false
      if hit then
        if matchEvents then
          match extractHeightFromKey kv.1 with
          | none => scanContainsLoop ctx matchEvents hInfo operand rest n tmp
          | some kh =>
            if checkHeightConditions hInfo kh then
              pollStep ctx n (scanContainsLoop ctx matchEvents hInfo operand rest (n + 1)
                (setTmpHashes tmp kv.1 kv.2 matchEvents))
            else scanContainsLoop ctx matchEvents hInfo operand rest n tmp
        else
          pollStep ctx n (scanContainsLoop ctx matchEvents hInfo operand rest (n + 1)
            (setTmpHashes tmp kv.1 kv.2 matchEvents))
      else
        pollStep ctx n (scanContainsLoop ctx matchEvents hInfo operand rest (n + 1) tmp)

/-- Intersection loop shared by match and matchRange: every entry of the
filter set whose key is missing from tmpHashes, or bound to different
bytes, is deleted (with a cancellation poll on each deletion). -/
def intersectLoop (ctx : Ctx) (tmp : FMap) : FMap → Nat → FMap
  | [], _ => []
  | kv :: rest, n =>
    match mapGet tmp kv.1 with
    | none => pollStep ctx n (intersectLoop ctx tmp rest (n + 1))
    | some tv =>
      if tv = kv.2 then kv :: intersectLoop ctx tmp rest n
      else pollStep ctx n (intersectLoop ctx tmp rest (n + 1))

/-- Evaluator match of the source (match is a reserved word in Lean): one
equality / existence / containment condition producing a hash set, merged
into the incoming filter set.  The Contains branch asserts the operand to
be a string inside the loop, so the assertion only panics when the scan
reaches at least one tag key; the default branch of the switch is an
explicit panic. -/
def matchCond (ctx : Ctx) (store : Store) (c : Condition) (startKeyBz : Bytes)
    (filtered : FMap) (firstRun matchEvents : Bool) (hInfo : HeightInfo) :
    Except GErr FMap :=
  if !firstRun && filtered.isEmpty then .ok filtered
  else
    match
      ((match c.op with
       | .opEq =>
         .ok (scanKV ctx matchEvents hInfo (prefixScan store startKeyBz) 0 [])
       | .opExists =>
         .ok (scanKV ctx matchEvents hInfo
           (prefixScan store (startKey1 c.compositeKey)) 0 [])
       | .opContains =>
         let entries := prefixScan store (startKey1 c.compositeKey)
         match c.operand with
         | .str s => .ok (scanContainsLoop ctx matchEvents hInfo s entries 0 [])
         | _ =>
           if entries.any (fun kv => isTagKey kv.1) then .error .panicE
           else .ok []
       | _ => .error .panicE) : Except GErr FMap) with
    | .error e => .error e
    | .ok tmp =>
      .ok (if tmp.isEmpty || firstRun then tmp else intersectLoop ctx tmp filtered 0)

/-- Constant blockToSearch from the source. -/
def blockToSearch : Int := 5000

/-- Bound computation of matchRange: none when both bounds are absent; a
missing lower bound is replaced by upper - (blockToSearch - 1) and a
missing upper bound by lower + (blockToSearch - 1) (on big integers), both
are narrowed to int64, and the lower height is clamped to 1. -/
def mrBounds (qr : QueryRange) : Option (Int × Int) :=
  match lowerBoundValue qr, upperBoundValue qr with
  | none, none => none
  | lo?, up? =>
    let lowerBound : Int :=
      match lo? with
      | some l => l
      | none => up?.getD 0 - (blockToSearch - 1)
    let upperBound : Int :=
      match up? with
      | some u => u
      | none => lo?.getD 0 + (blockToSearch - 1)
    let lh := wrap64 lowerBound
    some (if lh < 1 then 1 else lh, wrap64 upperBound)

/-- Scan loop of matchRange: non-tag keys are skipped; when match-events is
on and the range is not the height range itself, the key height is checked
against the height info; surviving entries are inserted with a poll. -/
def scanRangeLoop (ctx : Ctx) (matchEvents checkH : Bool) (hInfo : HeightInfo) :
    Store → Nat → FMap → FMap
  | [], _, tmp => tmp
  | kv :: rest, n, tmp =>
    if !isTagKey kv.1 then scanRangeLoop ctx matchEvents checkH hInfo rest n tmp
    else if checkH then
      match extractHeightFromKey kv.1 with
      | none => scanRangeLoop ctx matchEvents checkH hInfo rest n tmp
      | some kh =>
        if checkHeightConditions hInfo kh then
          pollStep ctx n (scanRangeLoop ctx matchEvents checkH hInfo rest (n + 1)
            (setTmpHashes tmp kv.1 kv.2 matchEvents))
        else scanRangeLoop ctx matchEvents checkH hInfo rest n tmp
    else
      pollStep ctx n (scanRangeLoop ctx matchEvents checkH hInfo rest (n + 1)
        (setTmpHashes tmp kv.1 kv.2 matchEvents))

/-- Evaluator matchRange of the source: one numeric range condition.  The
incoming filter set is returned unchanged when both bounds are absent or
when the window guard rejects the adjusted bounds; otherwise the store is
scanned over the half-open key range built from the big-endian encodings of
the bounds, and the scan result is merged into the filter set. -/
def matchRange (ctx : Ctx) (store : Store) (qr : QueryRange) (startK : Bytes)
    (filtered : FMap) (firstRun matchEvents : Bool) (hInfo : HeightInfo) : FMap :=
  if !firstRun && filtered.isEmpty then filtered
  else
    match mrBounds qr with
    | none => filtered
    | some lu =>
      let lowerHeight := lu.1
      let upperHeight := lu.2
      if lowerHeight > upperHeight || upperHeight - lowerHeight > blockToSearch then
        filtered
      else
        let fromKey := startK ++ be4 lowerHeight ++ [tagKeySeparator]
        let toKey := startK ++ be4 upperHeight ++ [tagKeySeparator]
        let tmp := scanRangeLoop ctx matchEvents
          (matchEvents && qr.key ≠ txHeightKey) hInfo
          (rangeScan store fromKey toKey) 0 []
        if tmp.isEmpty || firstRun then tmp else intersectLoop ctx tmp filtered 0

/-- Loop of Search over the extracted ranges: the height range is skipped
under match-events unless the query is only a height range; the first
evaluator call seeds the filter set, and an empty seed breaks out of the
loop (the conditions loop still runs). -/
def runRanges (ctx : Ctx) (store : Store) (matchEvents : Bool)
    (hInfo : HeightInfo) : List QueryRange → FMap × Bool → FMap × Bool
  | [], st => st
  | qr :: rest, st =>
    if qr.key = txHeightKey && matchEvents && !hInfo.onlyHeightRange then
      runRanges ctx store matchEvents hInfo rest st
    else if !st.2 then
      let f := matchRange ctx store qr (startKey1 qr.key) st.1 true matchEvents hInfo
      if f.isEmpty then (f, true)
      else runRanges ctx store matchEvents hInfo rest (f, true)
    else
      runRanges ctx store matchEvents hInfo rest
        (matchRange ctx store qr (startKey1 qr.key) st.1 false matchEvents hInfo, true)

/-- Loop of Search over the remaining conditions, skipping the indexes
handled earlier; the first evaluator call seeds the filter set, and an
empty seed breaks out of the loop. -/
def runConds (ctx : Ctx) (store : Store) (matchEvents : Bool)
    (hInfo : HeightInfo) (skipIdx : List Int) :
    List Condition → Nat → FMap × Bool → Except GErr (FMap × Bool)
  | [], _, st => .ok st
  | c :: rest, i, st =>
    if skipIdx.contains (i : Int) then
      runConds ctx store matchEvents hInfo skipIdx rest (i + 1) st
    else if !st.2 then
      match matchCond ctx store c (startKeyForCondition c hInfo.height) st.1
        true matchEvents hInfo with
      | .error e => .error e
      | .ok f =>
        if f.isEmpty then .ok (f, true)
        else runConds ctx store matchEvents hInfo skipIdx rest (i + 1) (f, true)
    else
      match matchCond ctx store c (startKeyForCondition c hInfo.height) st.1
        false matchEvents hInfo with
      | .error e => .error e
      | .ok f => runConds ctx store matchEvents hInfo skipIdx rest (i + 1) (f, true)

/-- Lookup of one materializer value: a raw hash is fetched with Get; a
marshalled TxResult value (possible only when a scan walked over a by-hash
entry) is a key absent from the store, so the fetch finds nothing. -/
def valGet (store : Store) : StoreVal → Except GErr (Option TxResult)
  | .bytes hb => Get hb store
  | .txres _ => .ok none

/-- Materializer loop of Search: walk the values of the final filter set,
de-duplicate by value, fetch each hash (a failed fetch aborts the search;
an absent row contributes the nil result pointer), polling cancellation
after every entry. -/
def materialize (ctx : Ctx) (store : Store) :
    FMap → Nat → List StoreVal → List (Option TxResult) →
    Except GErr (List (Option TxResult))
  | [], _, _, results => .ok results
  | kv :: rest, n, seen, results =>
    let h := kv.2
    if seen.contains h then
      pollStep ctx n (materialize ctx store rest (n + 1) seen results)
    else
      match valGet store h with
      | .error _ => .error .getTxE
      | .ok res =>
        pollStep ctx n
          (materialize ctx store rest (n + 1) (seen ++ [h]) (results ++ [res]))

/-- Search of the source over an already parsed condition list: the entry
cancellation check, then the hash fast path, then match-events
normalization, height extraction, range extraction, the two evaluator
loops, and the materializer. -/
def Search (ctx : Ctx) (txi : TxIndexState) (conds : List Condition) :
    Except GErr (List (Option TxResult)) :=
  if ctx.entryDone then .ok []
  else
    match lookForHash conds with
    | .decodeErr => .error .hexE
    | .panicNS => .error .panicE
    | .found h =>
      match Get h txi.store with
      | .error _ => .error .retrieveE
      | .ok none => .ok []
      | .ok (some res) => .ok [some res]
    | .notFound =>
      let dm := dedupMatchEvents conds
      let conds1 := dm.1
      let matchEvents := dm.2
      let skip0 : List Int := if matchEvents then [(0 : Int)] else []
      match
        (if matchEvents then Except.ok (dedupHeight conds1)
         else
           match lookForHeight conds1 0 with
           | .error e => .error e
           | .ok p => .ok (conds1, ({ height := p.1, heightEqIdx := p.2 } : HeightInfo))) with
      | .error e => .error e
      | .ok ch =>
        let conds2 := ch.1
        let hInfo0 := ch.2
        let skip1 :=
          if matchEvents && !hInfo0.onlyHeightEq then skip0 ++ [hInfo0.heightEqIdx]
          else skip0
        let lr := lookForRangesWithHeight conds2
        let ranges := lr.1
        let rangeIdxs := lr.2.1
        let hInfo := { hInfo0 with heightRange := lr.2.2 }
        let skipIdx := skip1 ++ rangeIdxs.map (fun i => (i : Int))
        let st1 := runRanges ctx txi.store matchEvents hInfo ranges ([], false)
        match runConds ctx txi.store matchEvents hInfo skipIdx conds2 0 st1 with
        | .error e => .error e
        | .ok st2 => materialize ctx txi.store st2.1 0 [] []

/-- Fold Index over a list of results (a caller indexing one result per
call). -/
def indexAll (hashFn : Bytes → Bytes) (rs : List TxResult)
    (txi : TxIndexState) : Except GErr TxIndexState :=
  rs.foldl
    (fun acc r =>
      match acc with
      | .error e => .error e
      | .ok s => Index hashFn s r)
    (.ok txi)

/-- Concrete digest used by the scenario instances: a one-byte tag in front
of the transaction bytes (injective and never empty, like the real
digest). -/
def hfT : Bytes → Bytes := fun tx => 'H' :: tx

/-- Concrete eventless OK result at a given height. -/
def resAt (i : Nat) : TxResult :=
  { tx := [Char.ofNat i], height := (i : Int), index := 0,
    result := { code := 0, events := [] } }

/-- Store obtained by indexing ten eventless OK results with distinct
hashes at heights 1 through 10. -/
def s10 : TxIndexState :=
  match indexAll hfT ((List.range 10).map (fun i => resAt (i + 1))) ⟨[], 0⟩ with
  | .ok s => s
  | .error _ => ⟨[], 0⟩

/-- Conditions of the query tx.height >= 3 AND tx.height <= 7. -/
def qRange37 : List Condition :=
  [⟨txHeightKey, .opGte, .intO 3⟩, ⟨txHeightKey, .opLte, .intO 7⟩]

/-- Concrete OK result (height 10) for the overwrite scenarios. -/
def rOK : TxResult := ⟨"t".data, 10, 0, ⟨0, []⟩⟩

/-- Concrete failed result (code 1, height 20) with the same transaction
bytes as rOK. -/
def rFail : TxResult := ⟨"t".data, 20, 0, ⟨1, []⟩⟩

/-- Concrete second OK result (height 30) with the same transaction bytes
as rOK. -/
def rOK2 : TxResult := ⟨"t".data, 30, 0, ⟨0, []⟩⟩

/-- Constant digest mapping every transaction to the one-byte hash h. -/
def hfConst : Bytes → Bytes := fun _ => ['h']

/-- Store holding only rOK, indexed under the constant digest. -/
def sWithROK : TxIndexState :=
  match Index hfConst ⟨[], 0⟩ rOK with
  | .ok s => s
  | .error _ => ⟨[], 0⟩

/-- Concrete result whose hash is the single byte 0xAA. -/
def rAA : TxResult := ⟨"x".data, 5, 0, ⟨0, []⟩⟩

/-- Digest mapping every transaction to the one-byte hash 0xAA. -/
def hfAA : Bytes → Bytes := fun _ => [Char.ofNat 170]

/-- Store holding only rAA under the 0xAA digest. -/
def sAA : TxIndexState :=
  match Index hfAA ⟨[], 0⟩ rAA with
  | .ok s => s
  | .error _ => ⟨[], 0⟩

/-- Proposition that none of the keys the write pipeline of a result can
emit (its hash key, its height key, or any of its event keys at any
event-sequence value) equals the given key. -/
def opAvoidsKey (hashFn : Bytes → Bytes) (r : TxResult) (h : Bytes) : Prop :=
  hashFn r.tx ≠ h ∧ keyForHeight r ≠ h ∧
    ∀ e ∈ r.result.events, ∀ a ∈ e.attributes, ∀ s : Int,
      keyForEvent (e.type ++ '.' :: a.key) a.value r s ≠ h

/-- Indexer state after AddBatch of the batch [rFail, rOK2] on the store
holding rOK. -/
def sBatchOut : TxIndexState :=
  match AddBatch hfConst sWithROK [rFail, rOK2] with
  | .ok s => s
  | .error _ => ⟨[], 0⟩

/-! Theorems.  Helper lemmas first, then one theorem per claim, with the
witnesses and counterexamples the claims need. -/

theorem find_map_fix (t : List (Bytes × StoreVal)) (k k' : Bytes) (v : StoreVal)
    (h : ¬ k = k') :
    List.find? (fun kv => kv.1 = k')
      (t.map (fun kv => if kv.1 = k then (k, v) else kv)) =
    List.find? (fun kv => kv.1 = k') t := by
  induction t with
  | nil => rfl
  | cons kv t ih =>
    have hne : ¬ k' = k := fun hc => h hc.symm
    by_cases hk : kv.1 = k
    · have h3 : ¬ (kv.1 = k') := fun hc => h (hk ▸ hc)
      simp [List.find?_cons, hk, h, h3, ih]
    · by_cases hkk : kv.1 = k'
      · simp [List.find?_cons, hk, hkk, hne]
      · simp [List.find?_cons, hk, hkk, ih]

theorem storeGet_storeSet (s : Store) (k k' : Bytes) (v : StoreVal) :
    storeGet (storeSet s k v) k' = if k' = k then some v else storeGet s k' := by
  induction s with
  | nil =>
    by_cases h : k' = k
    · simp [storeSet, storeGet, List.find?, h]
    · have h2 : ¬ (k = k') := fun hc => h hc.symm
      simp [storeSet, storeGet, List.find?, h, h2]
  | cons kv t ih =>
    by_cases hk : kv.1 = k
    · have hany : (kv :: t).any (fun kv => kv.1 = k) = true := by simp [hk]
      simp only [storeSet, hany, if_true, List.map_cons, if_pos hk]
      by_cases h : k' = k
      · simp [storeGet, List.find?_cons, h]
      · have h2 : ¬ (k = k') := fun hc => h hc.symm
        have h3 : ¬ (kv.1 = k') := fun hc => h2 (hk ▸ hc)
        simp only [storeGet, List.find?_cons, decide_eq_false h2,
          decide_eq_false h3, if_neg h, Bool.false_eq_true, if_false]
        rw [find_map_fix t k k' v h2]
    · by_cases ht : t.any (fun kv => kv.1 = k)
      · have hany : (kv :: t).any (fun kv => kv.1 = k) = true := by simp [ht]
        have htset : storeSet t k v =
            t.map (fun kv => if kv.1 = k then (k, v) else kv) := by
          simp [storeSet, ht]
        simp only [storeSet, hany, if_true, List.map_cons, if_neg hk]
        rw [htset] at ih
        by_cases hkk : kv.1 = k'
        · have hne : ¬ (k' = k) := fun hc => hk (by rw [hkk, hc])
          simp [storeGet, List.find?_cons, hkk, hne]
        · simp only [storeGet, List.find?_cons, hkk, decide_eq_false,
            Bool.false_eq_true, if_false] at *
          exact ih
      · have hany : (kv :: t).any (fun kv => kv.1 = k) = false := by simp [hk, ht]
        have htset : storeSet t k v = t ++ [(k, v)] := by simp [storeSet, ht]
        simp only [storeSet, hany, Bool.false_eq_true, if_false]
        rw [htset] at ih
        by_cases hkk : kv.1 = k'
        · have hne : ¬ (k' = k) := fun hc => hk (by rw [hkk, hc])
          simp [storeGet, List.find?_cons, hkk, hne]
        · simp only [List.cons_append, storeGet, List.find?_cons, hkk,
            decide_eq_false, Bool.false_eq_true, if_false] at *
          exact ih

theorem applyWrites_append (a b : List (Bytes × StoreVal)) (s : Store) :
    applyWrites (a ++ b) s = applyWrites b (applyWrites a s) := by
  simp [applyWrites, List.foldl_append]

theorem storeGet_applyWrites_last (ws : List (Bytes × StoreVal)) (s : Store)
    (k : Bytes) (v : StoreVal) :
    storeGet (applyWrites (ws ++ [(k, v)]) s) k = some v := by
  rw [applyWrites_append]
  simp [applyWrites, storeGet_storeSet]

theorem storeGet_applyWrites_avoid (ws : List (Bytes × StoreVal)) (s : Store)
    (k : Bytes) (h : ∀ kv ∈ ws, kv.1 ≠ k) :
    storeGet (applyWrites ws s) k = storeGet s k := by
  induction ws generalizing s with
  | nil => simp [applyWrites]
  | cons kv t ih =>
    have h1 : kv.1 ≠ k := h kv (by simp)
    have ht : ∀ kv ∈ t, kv.1 ≠ k := fun x hx => h x (by simp [hx])
    simp only [applyWrites, List.foldl_cons]
    have hrec := ih (storeSet s kv.1 kv.2) ht
    simp only [applyWrites] at hrec
    rw [hrec, storeGet_storeSet]
    have hne : ¬ k = kv.1 := fun hc => h1 hc.symm
    simp [hne]
theorem storeGet_applyOp_self (hashFn : Bytes → Bytes) (txi : TxIndexState)
    (r : TxResult) :
    storeGet (applyOp hashFn txi r).store (hashFn r.tx) =
      some (StoreVal.txres r) := by
  simp only [applyOp, opWrites]
  rw [show (indexEvents r (hashFn r.tx) txi.eventSeq).1 ++
      [(keyForHeight r, StoreVal.bytes (hashFn r.tx)),
       (hashFn r.tx, StoreVal.txres r)] =
      ((indexEvents r (hashFn r.tx) txi.eventSeq).1 ++
        [(keyForHeight r, StoreVal.bytes (hashFn r.tx))]) ++
      [(hashFn r.tx, StoreVal.txres r)] by simp]
  exact storeGet_applyWrites_last _ _ _ _

theorem get_applyOp_self (hashFn : Bytes → Bytes) (txi : TxIndexState)
    (r : TxResult) (hne : hashFn r.tx ≠ []) :
    Get (hashFn r.tx) (applyOp hashFn txi r).store = .ok (some r) := by
  simp [Get, hne, storeGet_applyOp_self hashFn txi r]

/-- Claim C1 — Success-preservation: indexing a failed result whose
transaction bytes hash to the hash of an already indexed successful result
succeeds without changing the indexer state, and Get still returns the
successful result (with its code 0 and its height). -/
theorem C1_success_preservation (hashFn : Bytes → Bytes) (txi : TxIndexState)
    (r1 r2 : TxResult)
    (hsame : hashFn r2.tx = hashFn r1.tx)
    (hne : hashFn r1.tx ≠ [])
    (hc1 : r1.result.code = 0)
    (hc2 : r2.result.code ≠ 0) :
    ∃ s1, Index hashFn txi r1 = .ok s1 ∧
      Index hashFn s1 r2 = .ok s1 ∧
      Get (hashFn r1.tx) s1.store = .ok (some r1) := by
  refine ⟨applyOp hashFn txi r1, ?_, ?_, ?_⟩
  · simp [Index, hc1]
  · have hget := get_applyOp_self hashFn txi r1 hne
    simp [Index, hc2, hsame, hget, hc1]
  · exact get_applyOp_self hashFn txi r1 hne

/-- Witness for C1 at concrete inputs: hash the single byte h, first an OK
result at height 10, then a failed result at height 20 with the same
transaction bytes. -/
theorem C1_success_preservation_witness :
    (hfConst rFail.tx = hfConst rOK.tx ∧ hfConst rOK.tx ≠ [] ∧
      rOK.result.code = 0 ∧ rFail.result.code ≠ 0) ∧
    (∃ s1, Index hfConst ⟨[], 0⟩ rOK = .ok s1 ∧
      Index hfConst s1 rFail = .ok s1 ∧
      Get (hfConst rOK.tx) s1.store = .ok (some rOK)) :=
  ⟨⟨by decide, by decide, by decide, by decide⟩,
   C1_success_preservation hfConst ⟨[], 0⟩ rOK rFail
     (by decide) (by decide) (by decide) (by decide)⟩
theorem natDecAux_eq (fuel : Nat) : ∀ n : Nat, n ≤ fuel →
    natDecAux fuel n = ((Nat.digits 10 n).map digitChar).reverse := by
  induction fuel with
  | zero =>
    intro n hn
    interval_cases n
    simp [natDecAux]
  | succ f ih =>
    intro n hn
    by_cases h0 : n = 0
    · simp [natDecAux, h0]
    · have hd : Nat.digits 10 n = n % 10 :: Nat.digits 10 (n / 10) :=
        Nat.digits_def' (show (1:Nat) < 10 by norm_num) (Nat.pos_of_ne_zero h0)
    
      have hdiv : n / 10 ≤ f := by
        have h10 : n / 10 < n := Nat.div_lt_self (Nat.pos_of_ne_zero h0) (by norm_num)
        omega
      simp [natDecAux, h0, hd, ih (n / 10) hdiv]

theorem natDec_eq (n : Nat) :
    natDec n = if n = 0 then ['0']
      else ((Nat.digits 10 n).map digitChar).reverse := by
  by_cases h : n = 0
  · simp [natDec, h]
  · simp [natDec, h, natDecAux_eq n n (le_refl n)]

theorem indexEventsGo_key_mem (r : TxResult) (hash : Bytes) (es : List Event)
    (seq : Int) (kv : Bytes × StoreVal)
    (h : kv ∈ (indexEventsGo r hash es seq).1) :
    ∃ e ∈ es, ∃ a ∈ e.attributes, ∃ s : Int,
      kv.1 = keyForEvent (e.type ++ '.' :: a.key) a.value r s := by
  induction es generalizing seq with
  | nil => simp [indexEventsGo] at h
  | cons e t ih =>
    by_cases hty : e.type = []
    · simp only [indexEventsGo, hty, if_pos rfl] at h
      obtain ⟨e', he', a, ha, s, hs⟩ := ih (seq + 1) h
      exact ⟨e', by simp [he'], a, ha, s, hs⟩
    · simp only [indexEventsGo, if_neg hty, List.mem_append] at h
      rcases h with h | h
      · obtain ⟨a, ha, hkv⟩ := List.mem_filterMap.mp h
        by_cases hk : a.key = []
        · simp [hk] at hkv
        · by_cases hi : a.index
          · simp only [hk, hi, if_false, if_true, Option.some.injEq] at hkv
            refine ⟨e, by simp, a, ha, seq + 1, ?_⟩
            simp [← hkv]
          · simp [hk, hi] at hkv
      · obtain ⟨e', he', a, ha, s, hs⟩ := ih (seq + 1) h
        exact ⟨e', by simp [he'], a, ha, s, hs⟩

theorem storeGet_applyOp_avoid (hashFn : Bytes → Bytes) (txi : TxIndexState)
    (r : TxResult) (h : Bytes) (hav : opAvoidsKey hashFn r h) :
    storeGet (applyOp hashFn txi r).store h = storeGet txi.store h := by
  apply storeGet_applyWrites_avoid
  intro kv hkv
  simp only [opWrites, List.mem_append, List.mem_cons, List.not_mem_nil,
    or_false] at hkv
  rcases hkv with hkv | hkv | hkv
  · obtain ⟨e, he, a, ha, s, hs⟩ :=
      indexEventsGo_key_mem r (hashFn r.tx) r.result.events txi.eventSeq kv hkv
    rw [hs]
    exact hav.2.2 e he a ha s
  · rw [hkv]
    exact hav.2.1
  · rw [hkv]
    exact hav.1

theorem storeGet_foldl_avoid (hashFn : Bytes → Bytes) (l : List TxResult)
    (h : Bytes) (st : TxIndexState)
    (hav : ∀ r ∈ l, opAvoidsKey hashFn r h) :
    storeGet (l.foldl (applyOp hashFn) st).store h = storeGet st.store h := by
  induction l generalizing st with
  | nil => simp
  | cons r t ih =>
    simp only [List.foldl_cons]
    rw [ih (applyOp hashFn st r) (fun x hx => hav x (by simp [hx]))]
    exact storeGet_applyOp_avoid hashFn st r h (hav r (by simp))

/-- Counterexample to claim C3 as stated: the batch [rFail, rOK2] contains
the failed result rFail sharing its hash with the stored OK result rOK, yet
after AddBatch the hash resolves to rOK2 (the actual last writer), not to
rFail; containment of r2 in the batch does not make Get return r2. -/
theorem C3_addbatch_counterexample :
    Get (hfConst rFail.tx) sWithROK.store = .ok (some rOK) ∧
    rOK.result.code = 0 ∧ rFail.result.code ≠ 0 ∧
    rFail ∈ [rFail, rOK2] ∧ hfConst rFail.tx = hfConst rOK.tx ∧
    AddBatch hfConst sWithROK [rFail, rOK2] = .ok sBatchOut ∧
    Get (hfConst rFail.tx) sBatchOut.store = .ok (some rOK2) ∧
    Get (hfConst rFail.tx) sBatchOut.store ≠ .ok (some rFail) := by
  refine ⟨by decide, by decide, by decide, by decide, by decide, by decide,
    by decide, by decide⟩

/-- Claim C3, amended: AddBatch applies last-writer-wins and not the
success-preservation rule — when the failed result r2 is the last op of the
batch whose write pipeline can touch the stored hash of the OK result r1,
Get returns r2 after AddBatch, not r1. -/
theorem C3_addbatch_last_writer_wins (hashFn : Bytes → Bytes)
    (txi0 : TxIndexState) (l1 l2 : List TxResult) (r1 r2 : TxResult)
    (hne : hashFn r2.tx ≠ [])
    (hc1 : r1.result.code = 0) (hc2 : r2.result.code ≠ 0)
    (hav : ∀ r ∈ l2, opAvoidsKey hashFn r (hashFn r2.tx)) :
    ∃ s2, AddBatch hashFn txi0 (l1 ++ r2 :: l2) = .ok s2 ∧
      Get (hashFn r2.tx) s2.store = .ok (some r2) ∧
      Get (hashFn r2.tx) s2.store ≠ .ok (some r1) := by
  have hget2 : Get (hashFn r2.tx)
      ((l1 ++ r2 :: l2).foldl (applyOp hashFn) txi0).store = .ok (some r2) := by
    have hfold : (l1 ++ r2 :: l2).foldl (applyOp hashFn) txi0 =
        l2.foldl (applyOp hashFn)
          (applyOp hashFn (l1.foldl (applyOp hashFn) txi0) r2) := by
      simp [List.foldl_append]
    rw [hfold]
    have hget : storeGet
        (l2.foldl (applyOp hashFn)
          (applyOp hashFn (l1.foldl (applyOp hashFn) txi0) r2)).store
        (hashFn r2.tx) = some (StoreVal.txres r2) := by
      rw [storeGet_foldl_avoid hashFn l2 (hashFn r2.tx) _ hav]
      exact storeGet_applyOp_self hashFn _ r2
    simp [Get, hne, hget]
  refine ⟨(l1 ++ r2 :: l2).foldl (applyOp hashFn) txi0, rfl, hget2, ?_⟩
  rw [hget2]
  intro hc
  have h1 : some r2 = some r1 := by injection hc
  have h2 : r2 = r1 := by injection h1
  exact hc2 (by rw [h2]; exact hc1)

/-- Witness for the amended C3 at concrete inputs: the one-op batch [rFail]
on the store holding rOK. -/
theorem C3_addbatch_last_writer_wins_witness :
    (hfConst rFail.tx ≠ [] ∧ rOK.result.code = 0 ∧ rFail.result.code ≠ 0 ∧
      (∀ r ∈ ([] : List TxResult), opAvoidsKey hfConst r (hfConst rFail.tx))) ∧
    (∃ s2, AddBatch hfConst sWithROK ([] ++ rFail :: []) = .ok s2 ∧
      Get (hfConst rFail.tx) s2.store = .ok (some rFail) ∧
      Get (hfConst rFail.tx) s2.store ≠ .ok (some rOK)) :=
  ⟨⟨by decide, by decide, by decide, by simp⟩,
   C3_addbatch_last_writer_wins hfConst sWithROK [] [] rOK rFail
     (by decide) (by decide) (by decide) (by simp)⟩
theorem indexEventsGo_spec (r : TxResult) (hash : Bytes) :
    ∀ (es : List Event) (seq : Int) (n0 : Nat),
    (indexEventsGo r hash es seq).2 = seq + es.length ∧
    (indexEventsGo r hash es seq).1 =
      ((List.enumFrom n0 es).filter (fun ie => ie.2.type ≠ [])).flatMap
        (fun ie => ie.2.attributes.filterMap (fun a =>
          if a.key ≠ [] ∧ a.index then
            some (keyForEvent (ie.2.type ++ '.' :: a.key) a.value r
              (seq + 1 + ((ie.1 : Int) - (n0 : Int))), StoreVal.bytes hash)
          else none)) := by
  intro es
  induction es with
  | nil => intro seq n0; simp [indexEventsGo]
  | cons e t ih =>
    intro seq n0
    have htail := (ih (seq + 1) (n0 + 1)).2
    have hcong :
        ((List.enumFrom (n0 + 1) t).filter (fun ie => ie.2.type ≠ [])).flatMap
          (fun ie => ie.2.attributes.filterMap (fun a =>
            if a.key ≠ [] ∧ a.index then
              some (keyForEvent (ie.2.type ++ '.' :: a.key) a.value r
                (seq + 1 + 1 + ((ie.1 : Int) - ((n0 + 1 : Nat) : Int))),
                StoreVal.bytes hash)
            else none)) =
        ((List.enumFrom (n0 + 1) t).filter (fun ie => ie.2.type ≠ [])).flatMap
          (fun ie => ie.2.attributes.filterMap (fun a =>
            if a.key ≠ [] ∧ a.index then
              some (keyForEvent (ie.2.type ++ '.' :: a.key) a.value r
                (seq + 1 + ((ie.1 : Int) - (n0 : Int))), StoreVal.bytes hash)
            else none)) := by
      apply List.flatMap_congr
      intro ie _
      apply List.filterMap_congr
      intro a _
      have hseq : seq + 1 + 1 + ((ie.1 : Int) - ((n0 + 1 : Nat) : Int)) =
          seq + 1 + ((ie.1 : Int) - (n0 : Int)) := by push_cast; ring
      rw [hseq]
    constructor
    · by_cases hty : e.type = [] <;>
        simp [indexEventsGo, hty, (ih (seq + 1) (n0 + 1)).1] <;> ring
    · by_cases hty : e.type = []
      · have hfil : (List.enumFrom n0 (e :: t)).filter
            (fun ie => ie.2.type ≠ []) =
            (List.enumFrom (n0 + 1) t).filter (fun ie => ie.2.type ≠ []) := by
          simp [List.enumFrom, List.filter_cons, hty]
        simp only [indexEventsGo, hty, eq_self_iff_true, if_true, hfil]
        rw [htail, hcong]
      · have hfil : (List.enumFrom n0 (e :: t)).filter
            (fun ie => ie.2.type ≠ []) =
            (n0, e) :: (List.enumFrom (n0 + 1) t).filter
              (fun ie => ie.2.type ≠ []) := by
          simp [List.enumFrom, List.filter_cons, hty]
        simp only [indexEventsGo, if_neg hty, hfil, List.flatMap_cons]
        rw [htail, hcong]
        congr 1
        apply List.filterMap_congr
        intro a _
        have hseq : seq + 1 + (((n0 : Nat) : Int) - (n0 : Int)) = seq + 1 := by
          ring
        by_cases hk : a.key = [] <;> by_cases hi : a.index <;>
          simp [hk, hi, hseq]

/-- Claim C5 — Event-index write discipline: indexEvents advances the
event-sequence counter by exactly one per event of the result (empty-type
events included), and emits exactly one by-event-attribute write for each
attribute with a non-empty key and the index flag inside an event with a
non-empty type, keyed with that event's sequence number; empty-type events
and empty-key or non-indexed attributes contribute no write. -/
theorem C5_event_write_discipline (r : TxResult) (hash : Bytes) (seq : Int) :
    (indexEvents r hash seq).2 = seq + r.result.events.length ∧
    (indexEvents r hash seq).1 =
      (r.result.events.enum.filter (fun ie => ie.2.type ≠ [])).flatMap
        (fun ie => ie.2.attributes.filterMap (fun a =>
          if a.key ≠ [] ∧ a.index then
            some (keyForEvent (ie.2.type ++ '.' :: a.key) a.value r
              (seq + 1 + (ie.1 : Int)), StoreVal.bytes hash)
          else none)) := by
  have h := indexEventsGo_spec r hash r.result.events seq 0
  refine ⟨h.1, ?_⟩
  rw [indexEvents, h.2, List.enum]
  apply List.flatMap_congr
  intro ie _
  apply List.filterMap_congr
  intro a _
  have hseq : seq + 1 + ((ie.1 : Int) - ((0 : Nat) : Int)) =
      seq + 1 + (ie.1 : Int) := by push_cast; ring
  rw [hseq]
/-- Claim C6 — Block-window guard: after the missing-bound replacements and
the clamp of the lower height to 1 (mrBounds), a call to matchRange whose
adjusted bounds satisfy lower > upper or upper - lower > 5000 returns the
incoming filter set unchanged; matchRange takes no write batch, so no store
write can occur. -/
theorem C6_block_window_guard (ctx : Ctx) (store : Store) (qr : QueryRange)
    (startK : Bytes) (filtered : FMap) (firstRun matchEvents : Bool)
    (hInfo : HeightInfo) (lu : Int × Int)
    (hb : mrBounds qr = some lu)
    (hguard : lu.1 > lu.2 ∨ lu.2 - lu.1 > blockToSearch) :
    matchRange ctx store qr startK filtered firstRun matchEvents hInfo =
      filtered := by
  unfold matchRange
  by_cases h1 : (!firstRun && filtered.isEmpty) = true
  · simp [h1]
  · have hg : (decide (lu.1 > lu.2) || decide (lu.2 - lu.1 > blockToSearch)) =
        true := by
      rcases hguard with h | h <;> simp [h]
    simp [h1, hb, hg]

/-- Witness for C6 at concrete inputs: the inclusive range [1, 6000]
(window 5999 exceeds 5000) with a non-empty incoming filter set. -/
theorem C6_block_window_guard_witness :
    (mrBounds ⟨txHeightKey, some 1, some 6000, true, true⟩ =
        some (1, 6000) ∧
      ((1 : Int) > 6000 ∨ (6000 : Int) - 1 > blockToSearch)) ∧
    matchRange ctxNever [] ⟨txHeightKey, some 1, some 6000, true, true⟩
      (startKey1 txHeightKey)
      [((StoreVal.bytes ['a'], []), StoreVal.bytes ['a'])] true false {} =
      [((StoreVal.bytes ['a'], []), StoreVal.bytes ['a'])] :=
  ⟨⟨by decide, by decide⟩,
   C6_block_window_guard ctxNever [] ⟨txHeightKey, some 1, some 6000, true, true⟩
     (startKey1 txHeightKey)
     [((StoreVal.bytes ['a'], []), StoreVal.bytes ['a'])] true false {}
     (1, 6000) (by decide) (by decide)⟩
theorem splitSep_sepfree (sep : Char) (ys : Bytes) (h : sep ∉ ys) :
    splitSep sep ys = [ys] := by
  induction ys with
  | nil => rfl
  | cons c t ih =>
    have hc : ¬ c = sep := fun hc => h (by simp [hc])
    have ht : sep ∉ t := fun hm => h (by simp [hm])
    simp [splitSep, hc, ih ht]

theorem splitSep_ne_nil (sep : Char) (s : Bytes) : splitSep sep s ≠ [] := by
  induction s with
  | nil => simp [splitSep]
  | cons c t ih =>
    by_cases hc : c = sep
    · simp [splitSep, hc]
    · simp only [splitSep, hc, if_false]
      match hr : splitSep sep t with
      | [] => simp
      | p :: ps => simp

theorem splitSep_append_last (sep : Char) (xs ys : Bytes) (h : sep ∉ ys) :
    splitSep sep (xs ++ sep :: ys) = splitSep sep xs ++ [ys] := by
  induction xs with
  | nil => simp [splitSep, splitSep_sepfree sep ys h]
  | cons c t ih =>
    by_cases hc : c = sep
    · simp [splitSep, hc, ih]
    · simp only [List.cons_append, splitSep, hc, if_false, ih]
      match hr : splitSep sep (t ++ sep :: ys) with
      | [] => exact absurd hr (splitSep_ne_nil sep _)
      | p :: ps =>
        rw [ih] at hr
        match ht : splitSep sep t with
        | [] => exact absurd ht (splitSep_ne_nil sep t)
        | q :: qs =>
          rw [ht] at hr
          simp only [List.cons_append, List.cons.injEq] at hr
          simp [hr.1, hr.2]

theorem splitSep_cons_sepfree (sep : Char) (k rest : Bytes) (h : sep ∉ k) :
    splitSep sep (k ++ sep :: rest) = k :: splitSep sep rest := by
  induction k with
  | nil => simp [splitSep]
  | cons c t ih =>
    have hc : ¬ c = sep := fun hc => h (by simp [hc])
    have ht : sep ∉ t := fun hm => h (by simp [hm])
    simp only [List.cons_append, splitSep, hc, if_false, List.append_eq]
    rw [ih ht]
theorem digitChar_toNat (d : Nat) (h : d < 10) : (digitChar d).toNat = 48 + d := by
  interval_cases d <;> decide

theorem isDig_digitChar (d : Nat) (h : d < 10) : isDig (digitChar d) = true := by
  interval_cases d <;> decide

theorem natDec_all_isDig (n : Nat) : ∀ c ∈ natDec n, isDig c = true := by
  intro c hc
  rw [natDec_eq] at hc
  by_cases h0 : n = 0
  · simp [h0] at hc
    simp [hc]
    decide
  · simp only [h0, if_false, List.mem_reverse, List.mem_map] at hc
    obtain ⟨d, hd, hdc⟩ := hc
    have hlt : d < 10 := Nat.digits_lt_base (by norm_num) hd
    rw [← hdc]
    exact isDig_digitChar d hlt

theorem isDig_ne_sep (c : Char) (h : isDig c = true) : c ≠ tagKeySeparator := by
  intro hc
  rw [hc] at h
  exact absurd h (by decide)

theorem natDec_no_sep (n : Nat) : tagKeySeparator ∉ natDec n := by
  intro hmem
  exact absurd rfl (isDig_ne_sep _ (natDec_all_isDig n _ hmem)).symm

theorem intDec_no_sep (i : Int) : tagKeySeparator ∉ intDec i := by
  intro hmem
  by_cases h : i < 0
  · simp only [intDec, h, if_true, List.mem_cons] at hmem
    rcases hmem with hmem | hmem
    · exact absurd hmem (by decide)
    · exact natDec_no_sep _ hmem
  · simp only [intDec, h, if_false] at hmem
    exact natDec_no_sep _ hmem

theorem natDec_ne_nil (n : Nat) : natDec n ≠ [] := by
  rw [natDec_eq]
  by_cases h0 : n = 0
  · simp [h0]
  · simp only [h0, if_false, ne_eq, List.reverse_eq_nil_iff, List.map_eq_nil_iff]
    exact Nat.digits_ne_nil_iff_ne_zero.mpr h0

theorem foldl_digits_val (ds : List Nat) (hds : ∀ d ∈ ds, d < 10) (a : Nat) :
    List.foldl (fun acc c => acc * 10 + (c.toNat - 48)) a
      ((ds.map digitChar).reverse) =
    a * 10 ^ ds.length + Nat.ofDigits 10 ds := by
  induction ds generalizing a with
  | nil => simp
  | cons d t ih =>
    have hd : d < 10 := hds d (by simp)
    have ht : ∀ x ∈ t, x < 10 := fun x hx => hds x (by simp [hx])
    simp only [List.map_cons, List.reverse_cons, List.foldl_append,
      List.foldl_cons, List.foldl_nil, ih ht a]
    rw [digitChar_toNat d hd, Nat.ofDigits_cons]
    have : 48 + d - 48 = d := by omega
    rw [this, List.length_cons, pow_succ]
    ring

theorem parseDigits_natDec (n : Nat) : parseDigits (natDec n) = some n := by
  have hne : natDec n ≠ [] := natDec_ne_nil n
  have hall : (natDec n).all isDig = true :=
    List.all_eq_true.mpr (fun c hc => natDec_all_isDig n c hc)
  rw [parseDigits]
  simp only [hne, hall, and_true, if_pos, ne_eq, not_false_eq_true]
  rw [natDec_eq]
  by_cases h0 : n = 0
  · simp [h0]
  · simp only [h0, if_false, Option.some.injEq]
    have hds : ∀ d ∈ Nat.digits 10 n, d < 10 :=
      fun d hd => Nat.digits_lt_base (by norm_num) hd
    rw [foldl_digits_val (Nat.digits 10 n) hds 0]
    simp [Nat.ofDigits_digits]
theorem parseInt64_intDec (h : Int) (hlo : -(2 ^ 63) ≤ h) (hhi : h ≤ 2 ^ 63 - 1) :
    parseInt64 (intDec h) = some h := by
  by_cases hneg : h < 0
  · have hint : intDec h = '-' :: natDec (-h).toNat := by simp [intDec, hneg]
    have hbound : (-h).toNat ≤ 2 ^ 63 := by omega
    have hcast : (((-h).toNat : Nat) : Int) = -h := Int.toNat_of_nonneg (by omega)
    rw [hint]
    show (match parseDigits (natDec (-h).toNat) with
      | none => none
      | some n => if n ≤ 2 ^ 63 then some (-(n : Int)) else none) = some h
    rw [parseDigits_natDec]
    show (if (-h).toNat ≤ 2 ^ 63
      then some (-(((-h).toNat : Nat) : Int)) else none) = some h
    rw [if_pos hbound, hcast]
    simp
  · have hint : intDec h = natDec h.toNat := by simp [intDec, hneg]
    obtain ⟨c, cs, hcs⟩ := List.exists_cons_of_ne_nil (natDec_ne_nil h.toNat)
    have hcdig : isDig c = true := natDec_all_isDig h.toNat c (by rw [hcs]; simp)
    have hcm : ¬ c = '-' := by
      intro hc; rw [hc] at hcdig; exact absurd hcdig (by decide)
    have hcp : ¬ c = '+' := by
      intro hc; rw [hc] at hcdig; exact absurd hcdig (by decide)
    have hbound : h.toNat ≤ 2 ^ 63 - 1 := by omega
    have hcond : (decide (c = '-') || decide (c = '+')) = false := by
      simp [hcm, hcp]
    rw [hint, hcs]
    simp only [parseInt64, hcond, Bool.false_eq_true, if_false, ← hcs,
      parseDigits_natDec]
    rw [if_neg hcm, if_pos hbound]
    congr 1
    exact Int.toNat_of_nonneg (by omega)
theorem splitSep_length_pos (sep : Char) (s : Bytes) :
    1 ≤ (splitSep sep s).length := by
  cases hsp : splitSep sep s with
  | nil => exact absurd hsp (splitSep_ne_nil sep s)
  | cons a l => simp

theorem extractHeight_of_shape (X0 mid lastF : Bytes)
    (hm : tagKeySeparator ∉ mid) (hl : tagKeySeparator ∉ lastF) :
    extractHeightFromKey
      (X0 ++ tagKeySeparator :: (mid ++ tagKeySeparator :: lastF)) =
      parseInt64 mid := by
  have hsh : splitSep tagKeySeparator
      (X0 ++ tagKeySeparator :: (mid ++ tagKeySeparator :: lastF)) =
      (splitSep tagKeySeparator X0 ++ [mid]) ++ [lastF] := by
    rw [show X0 ++ tagKeySeparator :: (mid ++ tagKeySeparator :: lastF) =
        (X0 ++ tagKeySeparator :: mid) ++ tagKeySeparator :: lastF by simp]
    rw [splitSep_append_last _ _ _ hl, splitSep_append_last _ _ _ hm]
  have hL := splitSep_length_pos tagKeySeparator X0
  unfold extractHeightFromKey
  rw [hsh]
  have hnl : ¬ ((splitSep tagKeySeparator X0 ++ [mid]) ++ [lastF]).length < 2 := by
    simp
  rw [if_neg hnl]
  congr 1
  have hidx : ((splitSep tagKeySeparator X0 ++ [mid]) ++ [lastF]).length - 2 =
      (splitSep tagKeySeparator X0).length := by
    simp
  rw [hidx, List.append_assoc, List.getD_append_right _ _ _ _ (le_refl _)]
  simp
theorem no_sep_esSep : tagKeySeparator ∉ eventSeqSeparator := by decide

theorem no_sep_lastE (idx : Nat) (s : Int) :
    tagKeySeparator ∉ natDec idx ++ eventSeqSeparator ++ intDec s := by
  intro hmem
  simp only [List.mem_append] at hmem
  rcases hmem with (hmem | hmem) | hmem
  · exact natDec_no_sep idx hmem
  · exact no_sep_esSep hmem
  · exact intDec_no_sep s hmem

theorem no_sep_last0 (idx : Nat) :
    tagKeySeparator ∉ natDec idx ++ eventSeqSeparator ++ ['0'] := by
  intro hmem
  simp only [List.mem_append] at hmem
  rcases hmem with (hmem | hmem) | hmem
  · exact natDec_no_sep idx hmem
  · exact no_sep_esSep hmem
  · simp at hmem
    exact absurd hmem (by decide)

/-- Claim C7 — Height round-trip: for a TxResult with positive (int64)
height, extractHeightFromKey recovers the height from the by-height key;
and on every by-event-attribute key built by keyForEvent the second-to-last
separated field parses as a decimal integer equal to the height (which is
what extractHeightFromKey computes), whatever bytes the attribute key, the
value and the event sequence contain. -/
theorem C7_height_roundtrip (r : TxResult) (k v : Bytes) (s : Int)
    (hpos : 0 < r.height) (hmax : r.height ≤ 2 ^ 63 - 1) :
    extractHeightFromKey (keyForHeight r) = some r.height ∧
    extractHeightFromKey (keyForEvent k v r s) = some r.height := by
  have hmid := intDec_no_sep r.height
  have hparse := parseInt64_intDec r.height (by omega) hmax
  constructor
  · rw [show keyForHeight r =
        (txHeightKey ++ tagKeySeparator :: be4 r.height) ++ tagKeySeparator ::
          (intDec r.height ++ tagKeySeparator ::
            (natDec r.index ++ eventSeqSeparator ++ ['0'])) by
      simp [keyForHeight]]
    rw [extractHeight_of_shape _ _ _ hmid (no_sep_last0 r.index), hparse]
  · rw [show keyForEvent k v r s =
        (k ++ tagKeySeparator :: v) ++ tagKeySeparator ::
          (intDec r.height ++ tagKeySeparator ::
            (natDec r.index ++ eventSeqSeparator ++ intDec s)) by
      simp [keyForEvent]]
    rw [extractHeight_of_shape _ _ _ hmid (no_sep_lastE r.index s), hparse]

/-- Witness for C7 at concrete inputs: an eventless result at height 10 and
an event key for attribute acc.owner with value Ivan at sequence 7. -/
theorem C7_height_roundtrip_witness :
    ((0 : Int) < rOK.height ∧ rOK.height ≤ 2 ^ 63 - 1) ∧
    extractHeightFromKey (keyForHeight rOK) = some rOK.height ∧
    extractHeightFromKey
      (keyForEvent "acc.owner".data "Ivan".data rOK 7) = some rOK.height :=
  ⟨⟨by decide, by decide⟩,
   C7_height_roundtrip rOK "acc.owner".data "Ivan".data 7 (by decide) (by decide)⟩
theorem stripPre_append (k rest : Bytes) :
    stripPre (k ++ tagKeySeparator :: rest) (k ++ [tagKeySeparator]) = rest := by
  have hsplit : k ++ tagKeySeparator :: rest = (k ++ [tagKeySeparator]) ++ rest := by
    simp
  have hpre : (k ++ [tagKeySeparator]).isPrefixOf (k ++ tagKeySeparator :: rest) = true := by
    rw [List.isPrefixOf_iff_prefix, hsplit]
    exact List.prefix_append _ _
  rw [stripPre, if_pos hpre, hsplit, List.drop_left]

theorem stripSuf_append (v suffix : Bytes) :
    stripSuf (v ++ suffix) suffix = v := by
  have hsuf : suffix.isSuffixOf (v ++ suffix) = true := by
    rw [List.isSuffixOf_iff_suffix]
    exact List.suffix_append _ _
  rw [stripSuf, if_pos hsuf]
  have hlen : (v ++ suffix).length - suffix.length = v.length := by simp
  rw [hlen, List.take_left]

/-- Counterexample to claim C8 as stated: a composite key containing the
tag separator (legal, since event types and attribute keys are arbitrary
strings) shifts the first separated part, so the extracted value keeps the
tail of the composite key: for k the bytes of a/b and v the bytes of V
(which contains no separator), extraction yields b/V, not v. -/
theorem C8_value_roundtrip_counterexample :
    extractValueFromKey (keyForEvent "a/b".data "V".data rOK 7) =
      some "b/V".data ∧
    some "b/V".data ≠ some "V".data := by
  refine ⟨by decide, by decide⟩

/-- Claim C8, amended: for every key built by keyForEvent whose composite
key k and value v are both free of the tag separator, extractValueFromKey
is defined and recovers v exactly (the claim as stated fails when k
contains the separator, see the counterexample; v free of the separator
was already required). -/
theorem C8_value_roundtrip (r : TxResult) (k v : Bytes) (s : Int)
    (hk : tagKeySeparator ∉ k) (hv : tagKeySeparator ∉ v) :
    extractValueFromKey (keyForEvent k v r s) = some v := by
  have hmid := intDec_no_sep r.height
  have hlast := no_sep_lastE r.index s
  have hsh : splitSep tagKeySeparator (keyForEvent k v r s) =
      [k, v, intDec r.height, natDec r.index ++ eventSeqSeparator ++ intDec s] := by
    rw [keyForEvent, splitSep_cons_sepfree _ _ _ hk,
      splitSep_cons_sepfree _ _ _ hv,
      splitSep_cons_sepfree _ _ _ hmid,
      splitSep_sepfree _ _ hlast]
  simp only [extractValueFromKey, hsh]
  norm_num [List.getD]
  rw [keyForEvent, stripPre_append]
  simp only [List.append_assoc]
  rw [stripSuf_append]

/-- Witness for the amended C8 at concrete inputs: composite key acc.owner
and value Ivan, both free of the separator. -/
theorem C8_value_roundtrip_witness :
    (tagKeySeparator ∉ "acc.owner".data ∧ tagKeySeparator ∉ "Ivan".data) ∧
    extractValueFromKey (keyForEvent "acc.owner".data "Ivan".data rOK 7) =
      some "Ivan".data :=
  ⟨⟨by decide, by decide⟩,
   C8_value_roundtrip rOK "acc.owner".data "Ivan".data 7 (by decide) (by decide)⟩
/-- Claim C2 evaluation at the failing input: with ten results indexed at
heights 1..10, the query tx.height >= 3 AND tx.height <= 7 returns only the
four results at heights 3, 4, 5 and 6 — the toKey of matchRange is the
BE4-prefix of the height-7 keys and the bounded iterator excludes its
half-open upper end, so the inclusive upper bound of the query is lost and
the claimed five results are not returned. -/
theorem C2_height_range_code_eval :
    indexAll hfT ((List.range 10).map (fun i => resAt (i + 1))) ⟨[], 0⟩ =
      .ok s10 ∧
    Search ctxNever s10 qRange37 =
      .ok [some (resAt 3), some (resAt 4), some (resAt 5), some (resAt 6)] ∧
    [some (resAt 3), some (resAt 4), some (resAt 5), some (resAt 6)].length =
      4 := by
  refine ⟨by decide, by decide, by decide⟩
theorem lookForHash_first (l1 : List Condition) (c : Condition)
    (l2 : List Condition)
    (hl1 : ∀ x ∈ l1, x.compositeKey ≠ txHashKey)
    (hc : c.compositeKey = txHashKey) :
    lookForHash (l1 ++ c :: l2) =
      (match c.operand with
       | .str s =>
         (match hexDecode s with
          | some h => .found h
          | none => .decodeErr)
       | _ => .panicNS) := by
  induction l1 with
  | nil => simp [lookForHash, hc]
  | cons x t ih =>
    have hx : ¬ x.compositeKey = txHashKey := hl1 x (by simp)
    simp only [List.cons_append, lookForHash, hx, if_false]
    exact ih (fun y hy => hl1 y (by simp [hy]))

/-- Counterexample to claim C4 as stated: the query
[tx.hash = ff, tx.hash = aa] contains the condition tx.hash = aa whose hex
operand decodes to the stored hash 0xAA, yet Search consults only the first
tx.hash condition, so it returns the empty list even though the result for
0xAA is stored — not the single stored result for that hash. -/
theorem C4_hash_fast_path_counterexample :
    hexDecode "aa".data = some [Char.ofNat 170] ∧
    Get [Char.ofNat 170] sAA.store = .ok (some rAA) ∧
    Search ctxNever sAA
      [⟨txHashKey, .opEq, .str "ff".data⟩,
       ⟨txHashKey, .opEq, .str "aa".data⟩] = .ok [] ∧
    (Except.ok [] : Except GErr (List (Option TxResult))) ≠ .ok [some rAA] := by
  refine ⟨by decide, by decide, by decide, by decide⟩

/-- Claim C4, amended: for every query whose first condition with composite
key tx.hash carries a string operand hex-decoding to H, Search (entered
with a live context) returns exactly the point lookup of H — at most one
result — and no other condition of the query is evaluated. -/
theorem C4_hash_fast_path (ctx : Ctx) (txi : TxIndexState)
    (l1 l2 : List Condition) (c : Condition) (s h : Bytes)
    (hctx : ctx.entryDone = false)
    (hl1 : ∀ x ∈ l1, x.compositeKey ≠ txHashKey)
    (hc : c.compositeKey = txHashKey) (hop : c.operand = .str s)
    (hdec : hexDecode s = some h) :
    Search ctx txi (l1 ++ c :: l2) =
      (match Get h txi.store with
       | .error _ => .error .retrieveE
       | .ok none => .ok []
       | .ok (some res) => .ok [some res]) ∧
    ∀ l, Search ctx txi (l1 ++ c :: l2) = .ok l → l.length ≤ 1 := by
  have hlook : lookForHash (l1 ++ c :: l2) = .found h := by
    rw [lookForHash_first l1 c l2 hl1 hc, hop]
    show (match hexDecode s with
      | some h => HashLook.found h
      | none => HashLook.decodeErr) = .found h
    rw [hdec]
  have hmain : Search ctx txi (l1 ++ c :: l2) =
      (match Get h txi.store with
       | .error _ => .error .retrieveE
       | .ok none => .ok []
       | .ok (some res) => .ok [some res]) := by
    rw [Search]
    simp only [hctx, Bool.false_eq_true, if_false, hlook]
  refine ⟨hmain, ?_⟩
  intro l hl
  rw [hmain] at hl
  match hg : Get h txi.store with
  | .error e => rw [hg] at hl; exact absurd hl (by simp)
  | .ok none =>
    rw [hg] at hl
    simp only [Except.ok.injEq] at hl
    simp [← hl]
  | .ok (some res) =>
    rw [hg] at hl
    simp only [Except.ok.injEq] at hl
    simp [← hl]

/-- Witness for the amended C4 at concrete inputs: the single-condition
query tx.hash = aa against the store holding the result with hash 0xAA. -/
theorem C4_hash_fast_path_witness :
    (ctxNever.entryDone = false ∧ hexDecode "aa".data = some [Char.ofNat 170]) ∧
    Search ctxNever sAA [⟨txHashKey, .opEq, .str "aa".data⟩] =
      (match Get [Char.ofNat 170] sAA.store with
       | .error _ => .error .retrieveE
       | .ok none => .ok []
       | .ok (some res) => .ok [some res]) :=
  ⟨⟨rfl, by decide⟩,
   (C4_hash_fast_path ctxNever sAA [] []
     ⟨txHashKey, .opEq, .str "aa".data⟩ "aa".data [Char.ofNat 170]
     rfl (by simp) rfl rfl (by decide)).1⟩

/-- Counterexample to claim C9 as stated: a tx.hash condition with the
Exists operator carries no operand, so the string type assertion in
lookForHash panics — Search crashes instead of taking the hash fast path
(it does not even return a result list). -/
theorem C9_exists_counterexample :
    Search ctxNever sAA [⟨txHashKey, .opExists, .nilO⟩] = .error .panicE ∧
    Search ctxNever sAA [⟨txHashKey, .opExists, .nilO⟩] ≠ .ok [] := by
  refine ⟨by decide, by decide⟩

/-- Claim C9, amended: lookForHash selects the first condition whose
composite key is tx.hash without inspecting its operator — the outcome of
Search is invariant under replacing that condition's operator by any other
operator (so a Contains on tx.hash with a decodable hex string operand
takes the fast path exactly as Eq does) — but a tx.hash condition whose
operand is not a string (as with Exists) makes the type assertion panic
rather than take the fast path. -/
theorem C9_lookforhash_ignores_op (ctx : Ctx) (txi : TxIndexState)
    (l1 l2 : List Condition) (c : Condition) (op2 : QOp)
    (hl1 : ∀ x ∈ l1, x.compositeKey ≠ txHashKey)
    (hc : c.compositeKey = txHashKey) :
    Search ctx txi (l1 ++ ⟨c.compositeKey, op2, c.operand⟩ :: l2) =
      Search ctx txi (l1 ++ c :: l2) := by
  have h1 : lookForHash (l1 ++ ⟨c.compositeKey, op2, c.operand⟩ :: l2) =
      lookForHash (l1 ++ c :: l2) := by
    rw [lookForHash_first l1 c l2 hl1 hc,
      lookForHash_first l1 ⟨c.compositeKey, op2, c.operand⟩ l2 hl1 hc]
  by_cases hctx : ctx.entryDone
  · rw [Search, Search]
    simp [hctx]
  · have hnn : lookForHash (l1 ++ c :: l2) ≠ .notFound := by
      rw [lookForHash_first l1 c l2 hl1 hc]
      match c.operand with
      | .str s => cases hd : hexDecode s <;> simp [hd]
      | .intO n => simp
      | .nilO => simp
    rw [Search, Search]
    simp only [hctx, Bool.false_eq_true, if_false, h1]
    match hX : lookForHash (l1 ++ c :: l2) with
    | .notFound => exact absurd hX hnn
    | .panicNS => simp
    | .decodeErr => simp
    | .found hh => simp

/-- Witness for the amended C9 at concrete inputs: replacing Eq by Contains
on the tx.hash condition leaves the Search outcome unchanged. -/
theorem C9_lookforhash_ignores_op_witness :
    Search ctxNever sAA [⟨txHashKey, .opContains, .str "aa".data⟩] =
      Search ctxNever sAA [⟨txHashKey, .opEq, .str "aa".data⟩] :=
  C9_lookforhash_ignores_op ctxNever sAA [] []
    ⟨txHashKey, .opEq, .str "aa".data⟩ .opContains (by simp) rfl
theorem pollStep_eq (ctx : Ctx) (n : Nat) (a : α) : pollStep ctx n a = a := by
  cases h : ctx.laterDone n <;> simp [pollStep, h]

theorem scanKV_ctx (ctx1 ctx2 : Ctx) (me : Bool) (hi : HeightInfo) :
    ∀ (es : Store) (n : Nat) (tmp : FMap),
    scanKV ctx1 me hi es n tmp = scanKV ctx2 me hi es n tmp := by
  intro es
  induction es with
  | nil => intro n tmp; rfl
  | cons kv rest ih =>
    intro n tmp
    simp only [scanKV, pollStep_eq, ih]

theorem scanContainsLoop_ctx (ctx1 ctx2 : Ctx) (me : Bool) (hi : HeightInfo)
    (operand : Bytes) :
    ∀ (es : Store) (n : Nat) (tmp : FMap),
    scanContainsLoop ctx1 me hi operand es n tmp =
      scanContainsLoop ctx2 me hi operand es n tmp := by
  intro es
  induction es with
  | nil => intro n tmp; rfl
  | cons kv rest ih =>
    intro n tmp
    simp only [scanContainsLoop, pollStep_eq, ih]

theorem scanRangeLoop_ctx (ctx1 ctx2 : Ctx) (me chk : Bool) (hi : HeightInfo) :
    ∀ (es : Store) (n : Nat) (tmp : FMap),
    scanRangeLoop ctx1 me chk hi es n tmp =
      scanRangeLoop ctx2 me chk hi es n tmp := by
  intro es
  induction es with
  | nil => intro n tmp; rfl
  | cons kv rest ih =>
    intro n tmp
    simp only [scanRangeLoop, pollStep_eq, ih]

theorem intersectLoop_ctx (ctx1 ctx2 : Ctx) (tmp : FMap) :
    ∀ (l : FMap) (n : Nat),
    intersectLoop ctx1 tmp l n = intersectLoop ctx2 tmp l n := by
  intro l
  induction l with
  | nil => intro n; rfl
  | cons kv rest ih =>
    intro n
    simp only [intersectLoop, pollStep_eq, ih]

theorem matchCond_ctx (ctx1 ctx2 : Ctx) (store : Store) (c : Condition)
    (startKeyBz : Bytes) (filtered : FMap) (firstRun me : Bool)
    (hi : HeightInfo) :
    matchCond ctx1 store c startKeyBz filtered firstRun me hi =
      matchCond ctx2 store c startKeyBz filtered firstRun me hi := by
  unfold matchCond
  simp only [scanKV_ctx ctx1 ctx2, scanContainsLoop_ctx ctx1 ctx2,
    intersectLoop_ctx ctx1 ctx2]

theorem matchRange_ctx (ctx1 ctx2 : Ctx) (store : Store) (qr : QueryRange)
    (startK : Bytes) (filtered : FMap) (firstRun me : Bool)
    (hi : HeightInfo) :
    matchRange ctx1 store qr startK filtered firstRun me hi =
      matchRange ctx2 store qr startK filtered firstRun me hi := by
  unfold matchRange
  simp only [scanRangeLoop_ctx ctx1 ctx2, intersectLoop_ctx ctx1 ctx2]

theorem runRanges_ctx (ctx1 ctx2 : Ctx) (store : Store) (me : Bool)
    (hi : HeightInfo) :
    ∀ (rs : List QueryRange) (st : FMap × Bool),
    runRanges ctx1 store me hi rs st = runRanges ctx2 store me hi rs st := by
  intro rs
  induction rs with
  | nil => intro st; rfl
  | cons qr rest ih =>
    intro st
    simp only [runRanges, matchRange_ctx ctx1 ctx2, ih]

theorem runConds_ctx (ctx1 ctx2 : Ctx) (store : Store) (me : Bool)
    (hi : HeightInfo) (skipIdx : List Int) :
    ∀ (cs : List Condition) (i : Nat) (st : FMap × Bool),
    runConds ctx1 store me hi skipIdx cs i st =
      runConds ctx2 store me hi skipIdx cs i st := by
  intro cs
  induction cs with
  | nil => intro i st; rfl
  | cons c rest ih =>
    intro i st
    simp only [runConds, matchCond_ctx ctx1 ctx2, ih]

theorem materialize_ctx (ctx1 ctx2 : Ctx) (store : Store) :
    ∀ (m : FMap) (n : Nat) (seen : List StoreVal)
      (results : List (Option TxResult)),
    materialize ctx1 store m n seen results =
      materialize ctx2 store m n seen results := by
  intro m
  induction m with
  | nil => intro n seen results; rfl
  | cons kv rest ih =>
    intro n seen results
    simp only [materialize, pollStep_eq, ih]

/-- Claim C10 — Cancellation after entry has no effect: for every context
that is not yet done when Search is entered, the result equals that of a
run with a never-cancelled context, whatever the cancellation answers at
the later poll sites are — each later poll is a select whose cancelled
branch is a bare break, which in Go exits only the select statement and
never the enclosing for loop, so every scan and every fetch runs to
exhaustion. -/
theorem C10_cancellation_after_entry (ctx : Ctx) (txi : TxIndexState)
    (conds : List Condition) (hctx : ctx.entryDone = false) :
    Search ctx txi conds = Search ctxNever txi conds := by
  rw [Search, Search]
  have h2 : ctxNever.entryDone = false := rfl
  simp only [hctx, h2, Bool.false_eq_true, if_false]
  simp only [runRanges_ctx ctx ctxNever, runConds_ctx ctx ctxNever,
    materialize_ctx ctx ctxNever]

/-- Witness for C10 at concrete inputs: a context cancelled immediately
after entry gives the same answer on the ten-result store and the height
range query as the never-cancelled context. -/
theorem C10_cancellation_after_entry_witness :
    ({ entryDone := false, laterDone := fun _ => true } : Ctx).entryDone =
      false ∧
    Search { entryDone := false, laterDone := fun _ => true } s10 qRange37 =
      Search ctxNever s10 qRange37 :=
  ⟨rfl, C10_cancellation_after_entry
    { entryDone := false, laterDone := fun _ => true } s10 qRange37 rfl⟩
